import Mathlib

/-
Verification development for the FastSin header (src/fast_sin.h).

The source is a stateful sine approximator: a range reducer that caches the
number of full 2*pi cycles of the previous input, a quadrant folder, and a
fixed minimax polynomial of degree 7 or 9.

Modelling conventions:
- C++ `double` arithmetic is modelled as exact rational arithmetic; every
  double literal of the source is taken at its exact decimal value.
- The `int` member m_previousFullCyckles is modelled as an unbounded integer;
  a separate theorem exhibits an input whose cycle count exceeds the range of
  any machine integer type.
- The narrowing `static_cast<float>` of the float instantiation is modelled by
  round-to-nearest-even with a 24-bit significand (binary32 rounding, with
  unbounded exponent, which is exact for the magnitudes that occur here).
-/

namespace FastSinModel

/-- Exact decimal value of the double literal FAST_SIN_PI (fast_sin.h line 82). -/
def FAST_SIN_PI : ℚ := 3.141592653589793

/-- fast_sin.h line 83: FAST_SIN_PI / 2.0. -/
def PI_DIV_2 : ℚ := FAST_SIN_PI / 2

/-- fast_sin.h line 84: FAST_SIN_PI * 3.0 / 2.0. -/
def PI_MULT_3_DIV_2 : ℚ := FAST_SIN_PI * 3 / 2

/-- fast_sin.h line 85: 2.0 * FAST_SIN_PI. -/
def PI_MULT_2 : ℚ := 2 * FAST_SIN_PI

/-- fast_sin.h line 86: 4.0 * FAST_SIN_PI. -/
def PI_MULT_4 : ℚ := 4 * FAST_SIN_PI

/-- C++ floating-to-integer conversion (static_cast<int>) truncates toward
zero: floor for nonnegative values, negated floor of the negation otherwise. -/
def truncInt (q : ℚ) : ℤ := if 0 ≤ q then ⌊q⌋ else -⌊-q⌋

/-- The mutable state of a FastSin object (fast_sin.h lines 89-92). -/
structure SinState where
  hasValidPreviousAngle : Bool
  previousAngle : ℚ
  previousFullCyckles : ℤ
  previousFullCycklesAngle : ℚ
deriving DecidableEq

/-- Outcome of the range-reduction portion of operator() (lines 98-143):
the reduced angle, the new cycle count and cached cycle angle, and a flag
recording whether the division-based branch (lines 137-143) ran. -/
structure ReduceOut where
  angleShort : ℚ
  cyc : ℤ
  cycAngle : ℚ
  slow : Bool
deriving DecidableEq

/-- The slow path (lines 139-142): div = angle / (2 pi), cycle count by
truncation toward zero, angleShort = (div - trunc div) * (2 pi). -/
def slowReduce (angle : ℚ) : ReduceOut :=
  { angleShort := (angle / PI_MULT_2 - (truncInt (angle / PI_MULT_2) : ℚ)) * PI_MULT_2
    cyc := truncInt (angle / PI_MULT_2)
    cycAngle := (truncInt (angle / PI_MULT_2) : ℚ) * PI_MULT_2
    slow := true }

/-- The full range reduction (lines 102-143).  On the fast path
diff = angle - m_previousAngle decides the direction; the tentative
angleShort = angle - m_previousFullCycklesAngle is corrected by at most one
cycle, otherwise the cache is invalidated and the slow path runs. -/
def reduce (s : SinState) (angle : ℚ) : ReduceOut :=
  if s.hasValidPreviousAngle then
    if 0 < angle - s.previousAngle then
      if PI_MULT_2 < angle - s.previousFullCycklesAngle then
        if angle - s.previousFullCycklesAngle ≤ PI_MULT_4 then
          { angleShort := angle - ((s.previousFullCyckles + 1 : ℤ) : ℚ) * PI_MULT_2
            cyc := s.previousFullCyckles + 1
            cycAngle := ((s.previousFullCyckles + 1 : ℤ) : ℚ) * PI_MULT_2
            slow := false }
        else slowReduce angle
      else
        { angleShort := angle - s.previousFullCycklesAngle
          cyc := s.previousFullCyckles
          cycAngle := s.previousFullCycklesAngle
          slow := false }
    else
      if angle - s.previousFullCycklesAngle < 0 then
        if -PI_MULT_2 ≤ angle - s.previousFullCycklesAngle then
          { angleShort := angle - ((s.previousFullCyckles - 1 : ℤ) : ℚ) * PI_MULT_2
            cyc := s.previousFullCyckles - 1
            cycAngle := ((s.previousFullCyckles - 1 : ℤ) : ℚ) * PI_MULT_2
            slow := false }
        else slowReduce angle
      else
        { angleShort := angle - s.previousFullCycklesAngle
          cyc := s.previousFullCyckles
          cycAngle := s.previousFullCycklesAngle
          slow := false }
  else slowReduce angle

/-- The quadrant folder (lines 149-161): returns (sign, folded angle).
The source initialises sign = 1.0 and runs an if / else-if chain; an
angleShort that satisfies none of the three guards is left unchanged. -/
def fold (angleShort : ℚ) : ℚ × ℚ :=
  if PI_DIV_2 < angleShort ∧ angleShort ≤ FAST_SIN_PI then
    (1, FAST_SIN_PI - angleShort)
  else if FAST_SIN_PI < angleShort ∧ angleShort ≤ PI_MULT_3_DIV_2 then
    (-1, angleShort - FAST_SIN_PI)
  else if PI_MULT_3_DIV_2 < angleShort ∧ angleShort ≤ PI_MULT_2 then
    (-1, PI_MULT_2 - angleShort)
  else (1, angleShort)

/-- Even companion polynomial of the degree-7 approximation (lines 180-181),
with the exact decimal values of the double literals. -/
def P7 (x2 : ℚ) : ℚ :=
  0.999999060898976 + x2 * (-0.166655540927576 +
    x2 * (0.00831189980138987 - 0.000184881402886071 * x2))

/-- Even companion polynomial of the degree-9 approximation (lines 186-188). -/
def P9 (x2 : ℚ) : ℚ :=
  0.999999994686007 + x2 * (-0.166666566840071 +
    x2 * (0.00833302513896936 + x2 * (-0.000198074187274269 +
      2.601903067651460e-6 * x2)))

/-- The `if constexpr` chain on Degree (lines 177-189).  For Degree outside
{7, 9} both branches are discarded and operator() has no return statement at
all; that absent return value is modelled as `none`. -/
def polyReturn (Degree : ℤ) (sign x1 x2 : ℚ) : Option ℚ :=
  if Degree = 7 then some (sign * x1 * P7 x2)
  else if Degree = 9 then some (sign * x1 * P9 x2)
  else none

/-- The state written by a completed call (lines 112-114, 126-128, 140-141,
166-167): m_previousAngle := angle and m_hasValidPreviousAngle := true always,
cycle data as produced by the reduction. -/
def stepState (s : SinState) (angle : ℚ) : SinState :=
  { hasValidPreviousAngle := true
    previousAngle := angle
    previousFullCyckles := (reduce s angle).cyc
    previousFullCycklesAngle := (reduce s angle).cycAngle }

/-- One full call of FastSin<double, Degree>::operator() on a given state:
returned value (if any) and successor state. -/
def fastSinStep (Degree : ℤ) (s : SinState) (angle : ℚ) : Option ℚ × SinState :=
  (polyReturn Degree
    (fold (reduce s angle).angleShort).1
    (fold (reduce s angle).angleShort).2
    ((fold (reduce s angle).angleShort).2 * (fold (reduce s angle).angleShort).2),
   stepState s angle)

/-- Returned value of the degree-7 double evaluator (defined for Degree = 7). -/
def fastSin7Out (s : SinState) (angle : ℚ) : ℚ :=
  ((fastSinStep 7 s angle).1).getD 0

/-- States a FastSin object can be in: freshly constructed (only
m_hasValidPreviousAngle is initialised, to false; the other members hold
arbitrary garbage), or the state after some call. -/
inductive Reachable : SinState → Prop
  | init (a : ℚ) (c : ℤ) (ca : ℚ) :
      Reachable { hasValidPreviousAngle := false, previousAngle := a,
                  previousFullCyckles := c, previousFullCycklesAngle := ca }
  | step (s : SinState) (a : ℚ) : Reachable s → Reachable (stepState s a)

/-- The state invariant that actually holds after every completed call:
the cached product is exact, and the previous angle lies within one cycle
of the cached cycle angle, on either side (the spec claims [0, 2 pi), which
fails for negative angles reduced on the slow path). -/
def Inv (s : SinState) : Prop :=
  s.previousFullCycklesAngle = (s.previousFullCyckles : ℚ) * PI_MULT_2 ∧
  -PI_MULT_2 < s.previousAngle - s.previousFullCycklesAngle ∧
  s.previousAngle - s.previousFullCycklesAngle ≤ PI_MULT_2

/-- Well-formedness of a reduction outcome: cached product exact, angleShort
congruent to the input modulo 2 pi and lying in (-2 pi, 2 pi]. -/
def ReduceOk (a : ℚ) (r : ReduceOut) : Prop :=
  r.cycAngle = (r.cyc : ℚ) * PI_MULT_2 ∧
  r.angleShort = a - (r.cyc : ℚ) * PI_MULT_2 ∧
  -PI_MULT_2 < r.angleShort ∧ r.angleShort ≤ PI_MULT_2

/-- Fuelled floor of log base 2 on naturals (0 for inputs 0 and 1). -/
def natLogTwoAux : Nat → Nat → Nat
  | 0, _ => 0
  | fuel + 1, n => if n ≤ 1 then 0 else natLogTwoAux fuel (n / 2) + 1

/-- Floor of log base 2 of a natural number. -/
def natLogTwo (n : Nat) : Nat := natLogTwoAux n n

/-- For 2 ^ (-80) ≤ |q|, the exponent e with 2 ^ e ≤ |q| < 2 ^ (e + 1),
computed by scaling into the integers (all float values handled in this
development lie well inside that magnitude range). -/
def ilog2 (q : ℚ) : ℤ := (natLogTwo (⌊|q| * 2 ^ 80⌋).toNat : ℤ) - 80

/-- Round a nonnegative rational to the nearest integer, ties to even. -/
def rnEven (m : ℚ) : ℤ :=
  if m - ⌊m⌋ < 1 / 2 then ⌊m⌋
  else if 1 / 2 < m - ⌊m⌋ then ⌊m⌋ + 1
  else if ⌊m⌋ % 2 = 0 then ⌊m⌋ else ⌊m⌋ + 1

/-- Binary32 narrowing: round to nearest even with a 24-bit significand
(exponent unbounded; exact for the magnitudes occurring below). -/
def toF32 (q : ℚ) : ℚ :=
  if q = 0 then 0
  else if q < 0 then
    -((rnEven (|q| / (2 : ℚ) ^ (ilog2 q - 23)) : ℚ) * (2 : ℚ) ^ (ilog2 q - 23))
  else
    (rnEven (|q| / (2 : ℚ) ^ (ilog2 q - 23)) : ℚ) * (2 : ℚ) ^ (ilog2 q - 23)

/-- Degree-7 return expression of the float instantiation (T = float),
with static_cast<float> applied exactly at the cast sites of lines 180-181:
the first three coefficients are cast before use, but the last cast wraps the
product 0.000184881402886071 * x2, and the whole double expression is
narrowed once more at the return. -/
def ret7Float (sign x1 x2 : ℚ) : ℚ :=
  toF32 (sign * x1 * (toF32 0.999999060898976 + x2 * (toF32 (-0.166655540927576) +
    x2 * (toF32 0.00831189980138987 - toF32 (0.000184881402886071 * x2)))))

/-- Modelled from the spec: degree-7 float evaluation as section 4.2 words it,
P(u) = a0 + u (a1 + u (a2 + a3 u)) with every coefficient narrowed to the
result precision before it is multiplied by its operand. -/
def ret7FloatSpec (sign x1 x2 : ℚ) : ℚ :=
  toF32 (sign * x1 * (toF32 0.999999060898976 + x2 * (toF32 (-0.166655540927576) +
    x2 * (toF32 0.00831189980138987 + toF32 (-0.000184881402886071) * x2))))

/-- Degree-7 float evaluation with the last term corrected to what the code
does: the coefficient a3 = -0.000184881402886071 is multiplied by u at double
precision and the product is then narrowed to the result type. -/
def ret7FloatAmended (sign x1 x2 : ℚ) : ℚ :=
  toF32 (sign * x1 * (toF32 0.999999060898976 + x2 * (toF32 (-0.166655540927576) +
    x2 * (toF32 0.00831189980138987 + toF32 (-0.000184881402886071 * x2)))))

/-- Degree-9 return expression of the float instantiation (lines 186-188):
here every coefficient, including the last, is cast before multiplication. -/
def ret9Float (sign x1 x2 : ℚ) : ℚ :=
  toF32 (sign * x1 * (toF32 0.999999994686007 + x2 * (toF32 (-0.166666566840071) +
    x2 * (toF32 0.00833302513896936 + x2 * (toF32 (-0.000198074187274269) +
      toF32 2.601903067651460e-6 * x2)))))

/-- Modelled from the spec: degree-9 float evaluation as section 4.2 words it,
every coefficient narrowed to the result precision before multiplication. -/
def ret9FloatSpec (sign x1 x2 : ℚ) : ℚ :=
  toF32 (sign * x1 * (toF32 0.999999994686007 + x2 * (toF32 (-0.166666566840071) +
    x2 * (toF32 0.00833302513896936 + x2 * (toF32 (-0.000198074187274269) +
      toF32 2.601903067651460e-6 * x2)))))

/-- The range reduction as instantiated at T = float (lines 102-143 with
T = float): m_previousAngle is declared with type T (line 90), so
diff = angle - m_previousAngle (line 104) is a float subtraction, rounded to
binary32 before widening to double; every other operation, including
angleShort = angle - m_previousFullCycklesAngle, is double precision exactly
as in `reduce`. -/
def reduceFloat (s : SinState) (angle : ℚ) : ReduceOut :=
  if s.hasValidPreviousAngle then
    if 0 < toF32 (angle - s.previousAngle) then
      if PI_MULT_2 < angle - s.previousFullCycklesAngle then
        if angle - s.previousFullCycklesAngle ≤ PI_MULT_4 then
          { angleShort := angle - ((s.previousFullCyckles + 1 : ℤ) : ℚ) * PI_MULT_2
            cyc := s.previousFullCyckles + 1
            cycAngle := ((s.previousFullCyckles + 1 : ℤ) : ℚ) * PI_MULT_2
            slow := false }
        else slowReduce angle
      else
        { angleShort := angle - s.previousFullCycklesAngle
          cyc := s.previousFullCyckles
          cycAngle := s.previousFullCycklesAngle
          slow := false }
    else
      if angle - s.previousFullCycklesAngle < 0 then
        if -PI_MULT_2 ≤ angle - s.previousFullCycklesAngle then
          { angleShort := angle - ((s.previousFullCyckles - 1 : ℤ) : ℚ) * PI_MULT_2
            cyc := s.previousFullCyckles - 1
            cycAngle := ((s.previousFullCyckles - 1 : ℤ) : ℚ) * PI_MULT_2
            slow := false }
        else slowReduce angle
      else
        { angleShort := angle - s.previousFullCycklesAngle
          cyc := s.previousFullCyckles
          cycAngle := s.previousFullCycklesAngle
          slow := false }
  else slowReduce angle

lemma PI_MULT_2_pos : (0 : ℚ) < PI_MULT_2 := by
  norm_num [PI_MULT_2, FAST_SIN_PI]

lemma PI_MULT_2_ne : (PI_MULT_2 : ℚ) ≠ 0 := ne_of_gt PI_MULT_2_pos

lemma const_chain :
    (0 : ℚ) < PI_DIV_2 ∧ PI_DIV_2 < FAST_SIN_PI ∧ FAST_SIN_PI < PI_MULT_3_DIV_2 ∧
      PI_MULT_3_DIV_2 < PI_MULT_2 ∧ PI_MULT_2 < PI_MULT_4 := by
  norm_num [PI_DIV_2, FAST_SIN_PI, PI_MULT_3_DIV_2, PI_MULT_2, PI_MULT_4]

lemma truncInt_dist (q : ℚ) : -1 < q - (truncInt q : ℚ) ∧ q - (truncInt q : ℚ) < 1 := by
  unfold truncInt
  split_ifs with h
  · have h1 := Int.floor_le q
    have h2 := Int.lt_floor_add_one q
    constructor <;> [linarith [Int.floor_nonneg.mpr h]; linarith]
  · push_neg at h
    have h1 := Int.floor_le (-q)
    have h2 := Int.lt_floor_add_one (-q)
    push_cast
    constructor <;> linarith

lemma slowReduce_ok (a : ℚ) : ReduceOk a (slowReduce a) := by
  obtain ⟨hd1, hd2⟩ := truncInt_dist (a / PI_MULT_2)
  have hW := PI_MULT_2_pos
  have hWne := PI_MULT_2_ne
  refine ⟨rfl, ?_, ?_, ?_⟩
  · show (a / PI_MULT_2 - (truncInt (a / PI_MULT_2) : ℚ)) * PI_MULT_2 =
      a - (truncInt (a / PI_MULT_2) : ℚ) * PI_MULT_2
    field_simp
    ring
  · show -PI_MULT_2 < (a / PI_MULT_2 - (truncInt (a / PI_MULT_2) : ℚ)) * PI_MULT_2
    nlinarith
  · show (a / PI_MULT_2 - (truncInt (a / PI_MULT_2) : ℚ)) * PI_MULT_2 ≤ PI_MULT_2
    nlinarith

lemma reduce_ok (s : SinState) (a : ℚ) (h : s.hasValidPreviousAngle = true → Inv s) :
    ReduceOk a (reduce s a) := by
  by_cases hv : s.hasValidPreviousAngle = true
  case neg =>
    simp only [reduce, hv, if_false, Bool.false_eq_true]
    exact slowReduce_ok a
  case pos =>
    obtain ⟨hca, hlo, hhi⟩ := h hv
    have hW := PI_MULT_2_pos
    have h24 : PI_MULT_4 = 2 * PI_MULT_2 := by rw [PI_MULT_4, PI_MULT_2]; ring
    simp only [reduce, hv, if_true]
    split_ifs with h1 h2 h3 h4 h5
    · rw [hca] at h2 h3
      rw [h24] at h3
      refine ⟨rfl, rfl, ?_, ?_⟩ <;> push_cast <;> linarith
    · exact slowReduce_ok a
    · push_neg at h2
      refine ⟨hca, by rw [hca], ?_, ?_⟩ <;> · dsimp only; linarith
    · rw [hca] at h4 h5
      refine ⟨rfl, rfl, ?_, ?_⟩ <;> push_cast <;> linarith
    · exact slowReduce_ok a
    · push_neg at h1 h4
      refine ⟨hca, by rw [hca], ?_, ?_⟩ <;> · dsimp only; linarith

lemma reachable_inv (s : SinState) (hr : Reachable s) :
    s.hasValidPreviousAngle = true → Inv s := by
  induction hr with
  | init a c ca => intro h; exact absurd h (by simp)
  | step t a ht ih =>
    intro _
    obtain ⟨h1, h2, h3, h4⟩ := reduce_ok t a ih
    refine ⟨h1, ?_, ?_⟩ <;> simp only [stepState] <;> rw [h1, ← h2]
    · exact h3
    · exact h4

lemma natLogTwoAux_bracket :
    ∀ (fuel n : ℕ), 1 ≤ n → n ≤ fuel + 1 →
      2 ^ natLogTwoAux fuel n ≤ n ∧ n < 2 ^ (natLogTwoAux fuel n + 1) := by
  intro fuel
  induction fuel with
  | zero =>
    intro n h1 h2
    have hn : n = 1 := by omega
    subst hn
    simp [natLogTwoAux]
  | succ f ih =>
    intro n h1 h2
    by_cases hn : n ≤ 1
    · have hn1 : n = 1 := by omega
      subst hn1
      simp [natLogTwoAux]
    · have hrec : natLogTwoAux (f + 1) n = natLogTwoAux f (n / 2) + 1 := by
        simp [natLogTwoAux, hn]
      obtain ⟨hl, hr⟩ := ih (n / 2) (by omega) (by omega)
      rw [hrec]
      have e1 : 2 ^ (natLogTwoAux f (n / 2) + 1) = 2 * 2 ^ natLogTwoAux f (n / 2) := by
        ring
      have e2 : 2 ^ (natLogTwoAux f (n / 2) + 1 + 1) =
          2 * 2 ^ (natLogTwoAux f (n / 2) + 1) := by ring
      constructor
      · rw [e1]; omega
      · rw [e2, e1]; omega

lemma natLogTwo_bracket (n : ℕ) (h1 : 1 ≤ n) :
    2 ^ natLogTwo n ≤ n ∧ n < 2 ^ (natLogTwo n + 1) :=
  natLogTwoAux_bracket n n h1 (by omega)

lemma ilog2_eq (q : ℚ) (e : ℤ) (he : -80 ≤ e)
    (h1 : (2 : ℚ) ^ e ≤ |q|) (h2 : |q| < (2 : ℚ) ^ (e + 1)) : ilog2 q = e := by
  have h2ne : (2 : ℚ) ≠ 0 := by norm_num
  have hk0 : (0 : ℤ) ≤ e + 80 := by linarith
  set k : ℕ := (e + 80).toNat with hkdef
  have hke : (k : ℤ) = e + 80 := Int.toNat_of_nonneg hk0
  have hx80 : ((2 : ℚ) ^ (80 : ℕ)) = (2 : ℚ) ^ (80 : ℤ) := by
    rw [← zpow_natCast]
    norm_num
  have hxlo : ((2 : ℚ) ^ k : ℚ) ≤ |q| * 2 ^ (80 : ℕ) := by
    calc ((2 : ℚ) ^ k : ℚ) = (2 : ℚ) ^ ((k : ℤ)) := by rw [zpow_natCast]
      _ = (2 : ℚ) ^ (e + 80) := by rw [hke]
      _ = (2 : ℚ) ^ e * (2 : ℚ) ^ (80 : ℤ) := by rw [zpow_add₀ h2ne]
      _ ≤ |q| * (2 : ℚ) ^ (80 : ℤ) :=
          mul_le_mul_of_nonneg_right h1 (by positivity)
      _ = |q| * 2 ^ (80 : ℕ) := by rw [hx80]
  have hxhi : |q| * 2 ^ (80 : ℕ) < (2 : ℚ) ^ (k + 1) := by
    calc |q| * 2 ^ (80 : ℕ) = |q| * (2 : ℚ) ^ (80 : ℤ) := by rw [hx80]
      _ < (2 : ℚ) ^ (e + 1) * (2 : ℚ) ^ (80 : ℤ) :=
          mul_lt_mul_of_pos_right h2 (by positivity)
      _ = (2 : ℚ) ^ (e + 1 + 80) := by rw [← zpow_add₀ h2ne]
      _ = (2 : ℚ) ^ ((k : ℤ) + 1) := by rw [hke]; ring_nf
      _ = (2 : ℚ) ^ ((((k + 1) : ℕ)) : ℤ) := by push_cast; ring_nf
      _ = (2 : ℚ) ^ (k + 1) := by rw [zpow_natCast]
  set n : ℤ := ⌊|q| * 2 ^ (80 : ℕ)⌋ with hndef
  have hnlo : (2 : ℤ) ^ k ≤ n := by
    apply Int.le_floor.mpr
    calc (((2 : ℤ) ^ k : ℤ) : ℚ) = (2 : ℚ) ^ k := by push_cast; ring
      _ ≤ |q| * 2 ^ (80 : ℕ) := hxlo
  have hnhi : n < (2 : ℤ) ^ (k + 1) := by
    have hfl := Int.floor_le (|q| * 2 ^ (80 : ℕ))
    have hlt : ((n : ℤ) : ℚ) < (2 : ℚ) ^ (k + 1) := lt_of_le_of_lt hfl hxhi
    have hcast : ((2 : ℚ) ^ (k + 1)) = (((2 : ℤ) ^ (k + 1) : ℤ) : ℚ) := by push_cast; ring
    rw [hcast] at hlt
    exact_mod_cast hlt
  have hn0 : 0 ≤ n := le_trans (by positivity) hnlo
  have hNcast : ((n.toNat : ℤ)) = n := Int.toNat_of_nonneg hn0
  have hNlo : 2 ^ k ≤ n.toNat := by
    have h : ((2 ^ k : ℕ) : ℤ) ≤ (n.toNat : ℤ) := by rw [hNcast]; push_cast; exact_mod_cast hnlo
    exact_mod_cast h
  have hNhi : n.toNat < 2 ^ (k + 1) := by
    have h : ((n.toNat : ℤ)) < ((2 ^ (k + 1) : ℕ) : ℤ) := by rw [hNcast]; push_cast; exact_mod_cast hnhi
    exact_mod_cast h
  have hN1 : 1 ≤ n.toNat := le_trans (Nat.one_le_pow k 2 (by norm_num)) hNlo
  obtain ⟨hAlo, hAhi⟩ := natLogTwo_bracket n.toNat hN1
  have hA : natLogTwo n.toNat = k := by
    rcases lt_trichotomy (natLogTwo n.toNat) k with h | h | h
    · exfalso
      have hle : natLogTwo n.toNat + 1 ≤ k := h
      have := Nat.pow_le_pow_right (by norm_num : 1 ≤ 2) hle
      omega
    · exact h
    · exfalso
      have hle : k + 1 ≤ natLogTwo n.toNat := h
      have := Nat.pow_le_pow_right (by norm_num : 1 ≤ 2) hle
      omega
  show (natLogTwo (⌊|q| * 2 ^ 80⌋).toNat : ℤ) - 80 = e
  rw [← hndef, hA]
  omega

lemma ilog2_neg_arg (q : ℚ) : ilog2 (-q) = ilog2 q := by
  simp [ilog2, abs_neg]

lemma toF32_neg (q : ℚ) : toF32 (-q) = -toF32 q := by
  rcases lt_trichotomy q 0 with h | h | h
  · have hq0 : q ≠ 0 := ne_of_lt h
    have hnq0 : -q ≠ 0 := neg_ne_zero.mpr hq0
    have hnq : ¬(-q < 0) := by linarith
    simp only [toF32, abs_neg, ilog2_neg_arg, if_neg hnq0, if_neg hnq, if_neg hq0, if_pos h,
      neg_neg]
  · subst h
    simp [toF32]
  · have hq0 : q ≠ 0 := ne_of_gt h
    have hnq0 : -q ≠ 0 := neg_ne_zero.mpr hq0
    have hnq : -q < 0 := by linarith
    have hqn : ¬(q < 0) := by linarith
    simp only [toF32, abs_neg, ilog2_neg_arg, if_neg hnq0, if_pos hnq, if_neg hq0, if_neg hqn]

lemma toF32_eq_of (q : ℚ) (e : ℤ) (h0 : 0 < q) (he : -80 ≤ e)
    (h1 : (2 : ℚ) ^ e ≤ q) (h2 : q < (2 : ℚ) ^ (e + 1)) :
    toF32 q = (rnEven (q / (2 : ℚ) ^ (e - 23)) : ℚ) * (2 : ℚ) ^ (e - 23) := by
  have habs : |q| = q := abs_of_pos h0
  have hne : q ≠ 0 := ne_of_gt h0
  have hE : ilog2 q = e := ilog2_eq q e he (by rwa [habs]) (by rwa [habs])
  simp only [toF32, if_neg hne, if_neg (not_lt.mpr h0.le), hE, habs]

lemma rnEven_ge_floor (m : ℚ) : ⌊m⌋ ≤ rnEven m := by
  unfold rnEven
  split_ifs <;> omega

lemma toF32_pos_of (d : ℚ) (hd : 0 < d) (hmag : (2 : ℚ) ^ (-80 : ℤ) ≤ d) : 0 < toF32 d := by
  obtain ⟨e, he1, he2⟩ := exists_mem_Ico_zpow hd (by norm_num : (1 : ℚ) < 2)
  have hee : -80 ≤ e := by
    by_contra hcon
    push_neg at hcon
    have h1 : e + 1 ≤ -80 := by omega
    have h2 : (2 : ℚ) ^ (e + 1) ≤ (2 : ℚ) ^ (-80 : ℤ) :=
      zpow_le_zpow_right₀ (by norm_num) h1
    linarith
  have hp : (0 : ℚ) < (2 : ℚ) ^ (e - 23) := zpow_pos (by norm_num) _
  rw [toF32_eq_of d e hd hee he1 he2]
  have hm1 : (1 : ℚ) ≤ d / (2 : ℚ) ^ (e - 23) := by
    rw [le_div_iff₀ hp, one_mul]
    calc (2 : ℚ) ^ (e - 23) ≤ (2 : ℚ) ^ e := zpow_le_zpow_right₀ (by norm_num) (by omega)
      _ ≤ d := he1
  have hfl : (1 : ℤ) ≤ ⌊d / (2 : ℚ) ^ (e - 23)⌋ := by
    rw [Int.le_floor]
    exact_mod_cast hm1
  have hrn : (0 : ℤ) < rnEven (d / (2 : ℚ) ^ (e - 23)) := by
    have := rnEven_ge_floor (d / (2 : ℚ) ^ (e - 23))
    omega
  exact mul_pos (by exact_mod_cast hrn) hp

lemma toF32_sign_iff (d : ℚ) (h : d = 0 ∨ (2 : ℚ) ^ (-80 : ℤ) ≤ |d|) :
    (0 < toF32 d ↔ 0 < d) := by
  rcases h with h | h
  · subst h
    simp [toF32]
  · rcases lt_trichotomy d 0 with hd | hd | hd
    · rw [abs_of_neg hd] at h
      have hpos : 0 < toF32 (-d) := toF32_pos_of (-d) (by linarith) h
      have hneg : toF32 d = -toF32 (-d) := by
        have h2 := toF32_neg (-d)
        rw [neg_neg] at h2
        exact h2
      constructor
      · intro hcon
        rw [hneg] at hcon
        linarith
      · intro hcon
        linarith
    · subst hd
      rw [abs_zero] at h
      have := zpow_pos (show (0 : ℚ) < 2 by norm_num) (-80 : ℤ)
      linarith
    · rw [abs_of_pos hd] at h
      exact ⟨fun _ => hd, fun _ => toF32_pos_of d hd h⟩

/-- Claim C2 (amended): for every reachable evaluator state and every input
angle, the range reducer produces an angle_short lying in (-2 pi, 2 pi]
(not [0, 2 pi) as claimed: the slow path truncates toward zero, so negative
inputs yield negative reduced angles, and the fast path accepts the 2 pi
boundary), and angle - angle_short is an integer multiple of 2 pi. -/
theorem C2_range_reduction_amended (s : SinState) (a : ℚ) (hr : Reachable s) :
    -PI_MULT_2 < (reduce s a).angleShort ∧ (reduce s a).angleShort ≤ PI_MULT_2 ∧
      ∃ k : ℤ, a - (reduce s a).angleShort = (k : ℚ) * PI_MULT_2 := by
  obtain ⟨h1, h2, h3, h4⟩ := reduce_ok s a (reachable_inv s hr)
  exact ⟨h3, h4, ⟨(reduce s a).cyc, by rw [h2]; ring⟩⟩

/-- Claim C2, counterexample: a fresh evaluator called with angle -1 reduces
it on the slow path to angle_short = -1, which is not in [0, 2 pi). -/
theorem C2_counterexample_negative_slow_path :
    (reduce (⟨false, 0, 0, 0⟩ : SinState) (-1)).angleShort < 0 := by
  norm_num [reduce, slowReduce, truncInt, PI_MULT_2, FAST_SIN_PI]

/-- Witness for C2_range_reduction_amended at the fresh state and angle -1. -/
theorem C2_witness :
    -PI_MULT_2 < (reduce (⟨false, 0, 0, 0⟩ : SinState) (-1)).angleShort ∧
    (reduce (⟨false, 0, 0, 0⟩ : SinState) (-1)).angleShort ≤ PI_MULT_2 ∧
    ∃ k : ℤ, (-1 : ℚ) - (reduce (⟨false, 0, 0, 0⟩ : SinState) (-1)).angleShort =
      (k : ℚ) * PI_MULT_2 :=
  C2_range_reduction_amended _ (-1) (Reachable.init 0 0 0)

/-- Claim C3 (amended): whenever m_hasValidPreviousAngle is true in a reachable
state, the cached product is exact and m_previousAngle - m_previousFullCycklesAngle
lies in (-2 pi, 2 pi] (the claimed [0, 2 pi) fails for negative angles). -/
theorem C3_state_invariant_amended (s : SinState) (hr : Reachable s)
    (hv : s.hasValidPreviousAngle = true) :
    s.previousFullCycklesAngle = (s.previousFullCyckles : ℚ) * PI_MULT_2 ∧
    -PI_MULT_2 < s.previousAngle - s.previousFullCycklesAngle ∧
    s.previousAngle - s.previousFullCycklesAngle ≤ PI_MULT_2 :=
  reachable_inv s hr hv

/-- Claim C3, counterexample: after a fresh evaluator processes angle -1,
m_hasValidPreviousAngle is true but previousAngle - previousFullCycklesAngle
is -1, outside the claimed [0, 2 pi). -/
theorem C3_counterexample_negative_cache :
    Reachable (stepState (⟨false, 0, 0, 0⟩ : SinState) (-1)) ∧
    (stepState (⟨false, 0, 0, 0⟩ : SinState) (-1)).hasValidPreviousAngle = true ∧
    (stepState (⟨false, 0, 0, 0⟩ : SinState) (-1)).previousAngle -
      (stepState (⟨false, 0, 0, 0⟩ : SinState) (-1)).previousFullCycklesAngle < 0 := by
  refine ⟨Reachable.step _ _ (Reachable.init 0 0 0), rfl, ?_⟩
  norm_num [stepState, reduce, slowReduce, truncInt, PI_MULT_2, FAST_SIN_PI]

/-- Witness for C3_state_invariant_amended after one call with angle 1. -/
theorem C3_witness :
    (stepState (⟨false, 0, 0, 0⟩ : SinState) 1).previousFullCycklesAngle =
      ((stepState (⟨false, 0, 0, 0⟩ : SinState) 1).previousFullCyckles : ℚ) * PI_MULT_2 ∧
    -PI_MULT_2 < (stepState (⟨false, 0, 0, 0⟩ : SinState) 1).previousAngle -
      (stepState (⟨false, 0, 0, 0⟩ : SinState) 1).previousFullCycklesAngle ∧
    (stepState (⟨false, 0, 0, 0⟩ : SinState) 1).previousAngle -
      (stepState (⟨false, 0, 0, 0⟩ : SinState) 1).previousFullCycklesAngle ≤ PI_MULT_2 :=
  C3_state_invariant_amended _ (Reachable.step _ _ (Reachable.init 0 0 0)) rfl

/-- Claim C4: the fast path (entered with a valid previous angle) decides by
diff = angle - previousAngle and the tentative angle_short =
angle - previousFullCycklesAngle: for diff > 0 it accepts when
angle_short ≤ 2 pi, bumps the cycle count up by exactly one and recomputes both
cached product and angle_short when 2 pi < angle_short ≤ 4 pi, and otherwise
falls through to the slow division; for diff ≤ 0 symmetrically with 0 and
-2 pi, bumping down by exactly one. -/
theorem C4_fast_path_case_analysis (s : SinState) (a : ℚ)
    (hv : s.hasValidPreviousAngle = true) :
    (0 < a - s.previousAngle →
      (a - s.previousFullCycklesAngle ≤ PI_MULT_2 →
        reduce s a = { angleShort := a - s.previousFullCycklesAngle,
                       cyc := s.previousFullCyckles,
                       cycAngle := s.previousFullCycklesAngle, slow := false }) ∧
      (PI_MULT_2 < a - s.previousFullCycklesAngle →
        a - s.previousFullCycklesAngle ≤ PI_MULT_4 →
        reduce s a = { angleShort := a - ((s.previousFullCyckles + 1 : ℤ) : ℚ) * PI_MULT_2,
                       cyc := s.previousFullCyckles + 1,
                       cycAngle := ((s.previousFullCyckles + 1 : ℤ) : ℚ) * PI_MULT_2,
                       slow := false }) ∧
      (PI_MULT_4 < a - s.previousFullCycklesAngle →
        reduce s a = slowReduce a ∧ (reduce s a).slow = true)) ∧
    (a - s.previousAngle ≤ 0 →
      (0 ≤ a - s.previousFullCycklesAngle →
        reduce s a = { angleShort := a - s.previousFullCycklesAngle,
                       cyc := s.previousFullCyckles,
                       cycAngle := s.previousFullCycklesAngle, slow := false }) ∧
      (-PI_MULT_2 ≤ a - s.previousFullCycklesAngle →
        a - s.previousFullCycklesAngle < 0 →
        reduce s a = { angleShort := a - ((s.previousFullCyckles - 1 : ℤ) : ℚ) * PI_MULT_2,
                       cyc := s.previousFullCyckles - 1,
                       cycAngle := ((s.previousFullCyckles - 1 : ℤ) : ℚ) * PI_MULT_2,
                       slow := false }) ∧
      (a - s.previousFullCycklesAngle < -PI_MULT_2 →
        reduce s a = slowReduce a ∧ (reduce s a).slow = true)) := by
  obtain ⟨c1, c2, c3, c4, c5⟩ := const_chain
  have hW := PI_MULT_2_pos
  simp only [reduce, hv, if_true]
  constructor
  · intro hd
    refine ⟨?_, ?_, ?_⟩
    · intro hle
      rw [if_pos hd, if_neg (not_lt.mpr hle)]
    · intro hgt hle4
      rw [if_pos hd, if_pos hgt, if_pos hle4]
    · intro hgt4
      have hgt : PI_MULT_2 < a - s.previousFullCycklesAngle := by linarith
      rw [if_pos hd, if_pos hgt, if_neg (not_le.mpr hgt4)]
      exact ⟨rfl, rfl⟩
  · intro hd
    have hd' : ¬(0 < a - s.previousAngle) := not_lt.mpr hd
    refine ⟨?_, ?_, ?_⟩
    · intro hge
      rw [if_neg hd', if_neg (not_lt.mpr hge)]
    · intro hge hlt
      rw [if_neg hd', if_pos hlt, if_pos hge]
    · intro hlt
      have hlt0 : a - s.previousFullCycklesAngle < 0 := by linarith
      rw [if_neg hd', if_pos hlt0, if_neg (not_le.mpr hlt)]
      exact ⟨rfl, rfl⟩

/-- Witness for C4_fast_path_case_analysis: from state (true, 0, 0, 0) the
call with angle 1 has diff = 1 > 0 and angle_short = 1 ≤ 2 pi, so it is
accepted unchanged. -/
theorem C4_witness :
    reduce (⟨true, 0, 0, 0⟩ : SinState) 1 = (⟨1, 0, 0, false⟩ : ReduceOut) := by
  have h := ((C4_fast_path_case_analysis (⟨true, 0, 0, 0⟩ : SinState) 1 rfl).1
    (by norm_num)).1 (by norm_num [PI_MULT_2, FAST_SIN_PI])
  simpa using h

/-- Claim C5: the quadrant folder maps angle_short through four ordered cases
(with all negatives captured by the first, default case), leaves anything
strictly above 2 pi at the defaults x = angle_short and s = +1, and the call
returns s * x * P(x ^ 2). -/
theorem C5_quadrant_fold_and_return :
    (∀ a : ℚ,
      (a ≤ PI_DIV_2 → fold a = (1, a)) ∧
      (PI_DIV_2 < a → a ≤ FAST_SIN_PI → fold a = (1, FAST_SIN_PI - a)) ∧
      (FAST_SIN_PI < a → a ≤ PI_MULT_3_DIV_2 → fold a = (-1, a - FAST_SIN_PI)) ∧
      (PI_MULT_3_DIV_2 < a → a ≤ PI_MULT_2 → fold a = (-1, PI_MULT_2 - a)) ∧
      (PI_MULT_2 < a → fold a = (1, a))) ∧
    (∀ (s : SinState) (ang : ℚ),
      (fastSinStep 7 s ang).1 = some ((fold (reduce s ang).angleShort).1 *
        (fold (reduce s ang).angleShort).2 *
        P7 ((fold (reduce s ang).angleShort).2 * (fold (reduce s ang).angleShort).2)) ∧
      (fastSinStep 9 s ang).1 = some ((fold (reduce s ang).angleShort).1 *
        (fold (reduce s ang).angleShort).2 *
        P9 ((fold (reduce s ang).angleShort).2 * (fold (reduce s ang).angleShort).2))) := by
  obtain ⟨c1, c2, c3, c4, c5⟩ := const_chain
  constructor
  · intro a
    refine ⟨?_, ?_, ?_, ?_, ?_⟩
    · intro h1
      rw [fold, if_neg (by rintro ⟨hx, -⟩; linarith), if_neg (by rintro ⟨hx, -⟩; linarith),
        if_neg (by rintro ⟨hx, -⟩; linarith)]
    · intro h1 h2
      rw [fold, if_pos ⟨h1, h2⟩]
    · intro h1 h2
      rw [fold, if_neg (by rintro ⟨-, hy⟩; linarith), if_pos ⟨h1, h2⟩]
    · intro h1 h2
      rw [fold, if_neg (by rintro ⟨-, hy⟩; linarith), if_neg (by rintro ⟨-, hy⟩; linarith),
        if_pos ⟨h1, h2⟩]
    · intro h1
      rw [fold, if_neg (by rintro ⟨-, hy⟩; linarith), if_neg (by rintro ⟨-, hy⟩; linarith),
        if_neg (by rintro ⟨-, hy⟩; linarith)]
  · intro s ang
    constructor <;> norm_num [fastSinStep, polyReturn]

/-- Witness for C5_quadrant_fold_and_return: one concrete input per folding
case (1; 2; 4; 5; and 7, which exceeds 2 pi and keeps the defaults). -/
theorem C5_witness :
    fold 1 = (1, 1) ∧ fold 2 = (1, FAST_SIN_PI - 2) ∧ fold 4 = (-1, 4 - FAST_SIN_PI) ∧
    fold 5 = (-1, PI_MULT_2 - 5) ∧ fold 7 = (1, 7) := by
  refine ⟨(C5_quadrant_fold_and_return.1 1).1 ?_,
          (C5_quadrant_fold_and_return.1 2).2.1 ?_ ?_,
          (C5_quadrant_fold_and_return.1 4).2.2.1 ?_ ?_,
          (C5_quadrant_fold_and_return.1 5).2.2.2.1 ?_ ?_,
          (C5_quadrant_fold_and_return.1 7).2.2.2.2 ?_⟩ <;>
    norm_num [PI_DIV_2, FAST_SIN_PI, PI_MULT_3_DIV_2, PI_MULT_2]

/-- Claim C6: for Degree = 5 the evaluator is constructed and called without
any rejection, and the call reaches the end of operator() with no return
statement (modelled as none) - instantiation is not refused at compile time. -/
theorem C6_degree5_constructible_and_callable :
    (fastSinStep 5 (⟨false, 0, 0, 0⟩ : SinState) 1).1 = none := by
  norm_num [fastSinStep, polyReturn]

/-- Claim C7: at the finite double input 2 ^ 300 the slow path's cycle count
exceeds 2 ^ 63 - 1, hence the double-to-int conversion stored into the int
member m_previousFullCyckles is out of range for any machine integer width
(undefined behavior in C++), contradicting totality with defined behavior. -/
theorem C7_slow_path_cycle_count_overflows_int :
    (2 : ℤ) ^ 63 - 1 < (slowReduce ((2 : ℚ) ^ 300)).cyc := by
  have h : (slowReduce ((2 : ℚ) ^ 300)).cyc = truncInt ((2 : ℚ) ^ 300 / PI_MULT_2) := rfl
  rw [h]
  unfold truncInt
  rw [if_pos (le_of_lt (div_pos (by positivity) PI_MULT_2_pos))]
  have hle : ((2 : ℤ) ^ 63 : ℤ) ≤ ⌊(2 : ℚ) ^ 300 / PI_MULT_2⌋ := by
    rw [Int.le_floor, le_div_iff₀ PI_MULT_2_pos]
    push_cast
    norm_num [PI_MULT_2, FAST_SIN_PI]
  linarith

/-- Claim C10: on a fresh evaluator (valid flag false) the first call takes
the slow path and its result and successor state are independent of the
garbage held in the three uninitialized members. -/
theorem C10_first_call_ignores_uninitialized (d : ℤ) (pa : ℚ) (c : ℤ) (ca : ℚ) (ang : ℚ) :
    fastSinStep d (⟨false, pa, c, ca⟩ : SinState) ang =
      fastSinStep d (⟨false, 0, 0, 0⟩ : SinState) ang ∧
    (reduce (⟨false, pa, c, ca⟩ : SinState) ang).slow = true := by
  constructor
  · simp [fastSinStep, stepState, reduce]
  · simp [reduce, slowReduce]

/-- Claim C1: the sweep accuracy bound fails.  The input -5 belongs to the
dense sweep (i = -5 * 10 ^ 7); a fresh degree-7 evaluator reduces it on the
slow path to angle_short = -5, the folder leaves x = -5, s = +1, and the
polynomial evaluated far outside [0, pi / 2] returns about 4.3011, while
sin(-5) is about 0.9589 - an absolute error around 3.34, far above the
documented bound 9.39101e-7. -/
theorem C1_degree7_sweep_bound_fails_at_neg5 :
    9.39101e-7 <
      |((fastSin7Out (⟨false, 0, 0, 0⟩ : SinState) (-5) : ℚ) : ℝ) - Real.sin (-5)| := by
  have hred : reduce (⟨false, 0, 0, 0⟩ : SinState) (-5) = (⟨-5, 0, 0, true⟩ : ReduceOut) := by
    norm_num [reduce, slowReduce, truncInt, PI_MULT_2, FAST_SIN_PI]
  have hfold : fold (-5 : ℚ) = (1, -5) := by
    norm_num [fold, PI_DIV_2, FAST_SIN_PI, PI_MULT_3_DIV_2, PI_MULT_2]
  have h4 : (4 : ℚ) ≤ fastSin7Out (⟨false, 0, 0, 0⟩ : SinState) (-5) := by
    rw [fastSin7Out, fastSinStep, hred]
    norm_num [hfold, polyReturn, P7]
  have h4R : (4 : ℝ) ≤ ((fastSin7Out (⟨false, 0, 0, 0⟩ : SinState) (-5) : ℚ) : ℝ) := by
    exact_mod_cast h4
  have hs1 : Real.sin (-5) ≤ 1 := Real.sin_le_one (-5)
  have habs :=
    le_abs_self (((fastSin7Out (⟨false, 0, 0, 0⟩ : SinState) (-5) : ℚ) : ℝ) - Real.sin (-5))
  have hb : (9.39101e-7 : ℝ) < 3 := by norm_num
  linarith

/-- Claim C9, counterexample: in the degree-7 float evaluation the last
coefficient is not narrowed before multiplication - the cast wraps the
product 0.000184881402886071 * x2 (line 181).  At x = 21 / 16 the evaluator
as coded and the evaluator with every coefficient narrowed first (as the
spec words it) return different float values. -/
theorem C9_counterexample_degree7_cast_site :
    ret7Float 1 (21 / 16) ((21 / 16) * (21 / 16)) ≠
      ret7FloatSpec 1 (21 / 16) ((21 / 16) * (21 / 16)) := by
  have hA : toF32 0.999999060898976 = 16777200 / 16777216 := by
    rw [toF32_eq_of 0.999999060898976 (-1) (by norm_num) (by norm_num) (by norm_num)
      (by norm_num)]
    norm_num [rnEven]
  have hBp : toF32 0.166655540927576 = 11184064 / 67108864 := by
    rw [toF32_eq_of 0.166655540927576 (-3) (by norm_num) (by norm_num) (by norm_num)
      (by norm_num)]
    norm_num [rnEven]
  have hB : toF32 (-0.166655540927576) = -(11184064 / 67108864) := by
    rw [show ((-0.166655540927576 : ℚ)) = -(0.166655540927576 : ℚ) by norm_num, toF32_neg, hBp]
  have hC : toF32 0.00831189980138987 = 8924834 / 1073741824 := by
    rw [toF32_eq_of 0.00831189980138987 (-7) (by norm_num) (by norm_num) (by norm_num)
      (by norm_num)]
    norm_num [rnEven]
  have hDc : toF32 (0.000184881402886071 * ((21 / 16) * (21 / 16))) =
      10943134 / 34359738368 := by
    rw [toF32_eq_of (0.000184881402886071 * ((21 / 16) * (21 / 16))) (-12) (by norm_num)
      (by norm_num) (by norm_num) (by norm_num)]
    norm_num [rnEven]
  have hDsp : toF32 0.000184881402886071 = 12704953 / 68719476736 := by
    rw [toF32_eq_of 0.000184881402886071 (-13) (by norm_num) (by norm_num) (by norm_num)
      (by norm_num)]
    norm_num [rnEven]
  have hDs : toF32 (-0.000184881402886071) = -(12704953 / 68719476736) := by
    rw [show ((-0.000184881402886071 : ℚ)) = -(0.000184881402886071 : ℚ) by norm_num,
      toF32_neg, hDsp]
  have hL : ret7Float 1 (21 / 16) ((21 / 16) * (21 / 16)) = 16220655 / 16777216 := by
    simp only [ret7Float]
    rw [hA, hB, hC, hDc]
    rw [toF32_eq_of _ (-1)]
    · norm_num [rnEven]
    · norm_num
    · norm_num
    · norm_num
    · norm_num
  have hR : ret7FloatSpec 1 (21 / 16) ((21 / 16) * (21 / 16)) = 16220656 / 16777216 := by
    simp only [ret7FloatSpec]
    rw [hA, hB, hC, hDs]
    rw [toF32_eq_of _ (-1)]
    · norm_num [rnEven]
    · norm_num
    · norm_num
    · norm_num
    · norm_num
  rw [hL, hR]
  norm_num

/-- Claim C9 (amended): in the degree-9 float evaluation every coefficient is
narrowed to the result precision before multiplication, exactly as the spec
words it; in the degree-7 evaluation the first three coefficients are, but the
last coefficient a3 = -0.000184881402886071 is multiplied by u = x ^ 2 at
double precision and the product is then narrowed.  u itself is computed at
double precision and the Horner association is as written. -/
theorem C9_amended_cast_structure (sign x1 x2 : ℚ) :
    ret7Float sign x1 x2 = ret7FloatAmended sign x1 x2 ∧
    ret9Float sign x1 x2 = ret9FloatSpec sign x1 x2 := by
  constructor
  · simp only [ret7Float, ret7FloatAmended]
    rw [show (-0.000184881402886071 : ℚ) * x2 = -(0.000184881402886071 * x2) by ring,
      toF32_neg, sub_eq_add_neg, toF32_neg]
  · rfl

/-- Claim C8, counterexample: for T = float the evaluation is not double
internals with only the final product and the coefficient conversions
narrowed.  ret7FloatSpec is exactly that described computation for degree 7;
at x = 21327 / 16384 (a binary32 value) the degree-7 float evaluation as
coded returns a different float, because line 181 additionally narrows the
product 0.000184881402886071 * x2. -/
theorem C8_counterexample_extra_narrowing :
    ret7Float 1 (21327 / 16384) ((21327 / 16384) * (21327 / 16384)) ≠
      ret7FloatSpec 1 (21327 / 16384) ((21327 / 16384) * (21327 / 16384)) := by
  have hA : toF32 0.999999060898976 = 16777200 / 16777216 := by
    rw [toF32_eq_of 0.999999060898976 (-1) (by norm_num) (by norm_num) (by norm_num)
      (by norm_num)]
    norm_num [rnEven]
  have hBp : toF32 0.166655540927576 = 11184064 / 67108864 := by
    rw [toF32_eq_of 0.166655540927576 (-3) (by norm_num) (by norm_num) (by norm_num)
      (by norm_num)]
    norm_num [rnEven]
  have hB : toF32 (-0.166655540927576) = -(11184064 / 67108864) := by
    rw [show ((-0.166655540927576 : ℚ)) = -(0.166655540927576 : ℚ) by norm_num, toF32_neg, hBp]
  have hC : toF32 0.00831189980138987 = 8924834 / 1073741824 := by
    rw [toF32_eq_of 0.00831189980138987 (-7) (by norm_num) (by norm_num) (by norm_num)
      (by norm_num)]
    norm_num [rnEven]
  have hDc : toF32 (0.000184881402886071 * ((21327 / 16384) * (21327 / 16384))) =
      10763729 / 34359738368 := by
    rw [toF32_eq_of (0.000184881402886071 * ((21327 / 16384) * (21327 / 16384))) (-12)
      (by norm_num) (by norm_num) (by norm_num) (by norm_num)]
    norm_num [rnEven]
  have hDsp : toF32 0.000184881402886071 = 12704953 / 68719476736 := by
    rw [toF32_eq_of 0.000184881402886071 (-13) (by norm_num) (by norm_num) (by norm_num)
      (by norm_num)]
    norm_num [rnEven]
  have hDs : toF32 (-0.000184881402886071) = -(12704953 / 68719476736) := by
    rw [show ((-0.000184881402886071 : ℚ)) = -(0.000184881402886071 : ℚ) by norm_num,
      toF32_neg, hDsp]
  have hL : ret7Float 1 (21327 / 16384) ((21327 / 16384) * (21327 / 16384)) =
      16173411 / 16777216 := by
    simp only [ret7Float]
    rw [hA, hB, hC, hDc]
    rw [toF32_eq_of _ (-1)]
    · norm_num [rnEven]
    · norm_num
    · norm_num
    · norm_num
    · norm_num
  have hR : ret7FloatSpec 1 (21327 / 16384) ((21327 / 16384) * (21327 / 16384)) =
      16173412 / 16777216 := by
    simp only [ret7FloatSpec]
    rw [hA, hB, hC, hDs]
    rw [toF32_eq_of _ (-1)]
    · norm_num [rnEven]
    · norm_num
    · norm_num
    · norm_num
    · norm_num
  rw [hL, hR]
  norm_num

/-- Claim C8 (amended): for T = float, m_previousAngle is stored at type T
(line 90) and diff = angle - m_previousAngle (line 104) is evaluated at float
precision, but diff only enters the reduction through its sign: whenever the
exact difference is zero or at least 2 ^ (-80) in magnitude (as for any two
distinct binary32 values in the model's magnitude range) the float-diff
reduction produces exactly the outputs of the all-double reduction.  All other
reduction arithmetic and the polynomial operand are double precision; besides
the coefficient conversions and the final product, the only further narrowing
is the degree-7 product a3 * x2, settled under claim C9. -/
theorem C8_float_diff_reduction_equivalence (s : SinState) (a : ℚ)
    (h : a - s.previousAngle = 0 ∨ (2 : ℚ) ^ (-80 : ℤ) ≤ |a - s.previousAngle|) :
    reduceFloat s a = reduce s a := by
  have hiff := toF32_sign_iff (a - s.previousAngle) h
  by_cases hv : s.hasValidPreviousAngle = true
  · simp only [reduceFloat, reduce, hv, if_true]
    by_cases hd : 0 < a - s.previousAngle
    · rw [if_pos (hiff.mpr hd), if_pos hd]
    · rw [if_neg (fun hcon => hd (hiff.mp hcon)), if_neg hd]
  · simp only [reduceFloat, reduce, if_neg hv]

/-- Witness for C8_float_diff_reduction_equivalence: state (true, 0, 0, 0) and
input 1, whose exact difference 1 clears the magnitude hypothesis. -/
theorem C8_witness :
    reduceFloat (⟨true, 0, 0, 0⟩ : SinState) 1 = reduce (⟨true, 0, 0, 0⟩ : SinState) 1 :=
  C8_float_diff_reduction_equivalence (⟨true, 0, 0, 0⟩ : SinState) 1
    (Or.inr (by norm_num))

end FastSinModel
